import Mathlib

/-!
Shallow embedding of the rusty-kaspa header-processing pipeline and the
address manager, together with proofs settling the specification claims.

Sources embedded:
* `components/addressmanager/src/lib.rs` (AddressManager and its in-memory
  mirror of the not-banned address store);
* `consensus/src/pipeline/header_processor/processor.rs` (`process_header`,
  `commit_header`, `process_origin_if_needed`).

Collaborators whose code lies outside the analysed tree (validation passes,
the parents manager, ghostdag managers, the `SortableBlock` ordering, the
`WeightedIndex` sampler of the `rand` crate and the hash type) are modelled
as abstract parameters or, where the claims depend on their behaviour, as
definitions taken from the specification text; each such definition says so
in its doc comment.
-/

namespace RustyKaspa

/-! ## Association-list maps

The Rust code keeps `HashMap`s (the in-memory mirror of the not-banned
address store) and RocksDB-backed key-value stores. Both are modelled as
association lists with unique keys; `insertA` replaces the value in place
when the key is present (as `HashMap::insert` does) and appends otherwise. -/

def lookupA {κ α : Type} [DecidableEq κ] : List (κ × α) → κ → Option α
  | [], _ => none
  | p :: t, k => if p.1 = k then some p.2 else lookupA t k

def replaceA {κ α : Type} [DecidableEq κ] : List (κ × α) → κ → α → List (κ × α)
  | [], _, _ => []
  | p :: t, k, v => if p.1 = k then (k, v) :: replaceA t k v else p :: replaceA t k v

def insertA {κ α : Type} [DecidableEq κ] (l : List (κ × α)) (k : κ) (v : α) : List (κ × α) :=
  if (lookupA l k).isSome then replaceA l k v else l ++ [(k, v)]

def removeA {κ α : Type} [DecidableEq κ] (l : List (κ × α)) (k : κ) : List (κ × α) :=
  l.filter (fun p => decide (p.1 ≠ k))

theorem lookupA_replaceA_self {κ α : Type} [DecidableEq κ] (l : List (κ × α)) (k : κ) (v : α)
    (h : (lookupA l k).isSome) : lookupA (replaceA l k v) k = some v := by
  induction l with
  | nil => simp [lookupA] at h
  | cons p t ih =>
    by_cases hk : p.1 = k
    · simp [replaceA, lookupA, hk]
    · simp only [lookupA, hk, if_false] at h
      simp [replaceA, lookupA, hk, ih h]

theorem lookupA_replaceA_other {κ α : Type} [DecidableEq κ] (l : List (κ × α)) (k k' : κ) (v : α)
    (hne : k' ≠ k) : lookupA (replaceA l k v) k' = lookupA l k' := by
  induction l with
  | nil => simp [replaceA]
  | cons p t ih =>
    by_cases hk : p.1 = k
    · have : ¬ (k = k') := fun hc => hne hc.symm
      simp [replaceA, lookupA, hk, this, ih]
    · simp [replaceA, lookupA, hk, ih]

theorem lookupA_append_right {κ α : Type} [DecidableEq κ] (l : List (κ × α)) (k : κ) (v : α)
    (h : lookupA l k = none) : lookupA (l ++ [(k, v)]) k = some v := by
  induction l with
  | nil => simp [lookupA]
  | cons p t ih =>
    by_cases hk : p.1 = k
    · simp [lookupA, hk] at h
    · simp only [lookupA, hk, if_false] at h
      simp [lookupA, hk, ih h]

theorem lookupA_insertA_self {κ α : Type} [DecidableEq κ] (l : List (κ × α)) (k : κ) (v : α) :
    lookupA (insertA l k v) k = some v := by
  unfold insertA
  by_cases h : (lookupA l k).isSome
  · simpa [h] using lookupA_replaceA_self l k v h
  · have hnone : lookupA l k = none := by
      cases hl : lookupA l k with
      | none => rfl
      | some w => rw [hl] at h; simp at h
    simpa [h] using lookupA_append_right l k v hnone

theorem lookupA_insertA_other {κ α : Type} [DecidableEq κ] (l : List (κ × α)) (k k' : κ) (v : α)
    (hne : k' ≠ k) : lookupA (insertA l k v) k' = lookupA l k' := by
  unfold insertA
  by_cases h : (lookupA l k).isSome
  · simpa [h] using lookupA_replaceA_other l k k' v hne
  · simp only [h, if_false]
    clear h
    induction l with
    | nil =>
      have : ¬ (k = k') := fun hc => hne hc.symm
      simp [lookupA, this]
    | cons p t ih =>
      by_cases hp' : p.1 = k'
      · simp [lookupA, hp']
      · simp only [List.cons_append, lookupA, hp', if_false]
        exact ih

theorem lookupA_removeA_self {κ α : Type} [DecidableEq κ] (l : List (κ × α)) (k : κ) :
    lookupA (removeA l k) k = none := by
  induction l with
  | nil => simp [removeA, lookupA]
  | cons p t ih =>
    by_cases hk : p.1 = k
    · simpa [removeA, hk] using ih
    · simpa [removeA, lookupA, hk] using ih

theorem length_replaceA {κ α : Type} [DecidableEq κ] (l : List (κ × α)) (k : κ) (v : α) :
    (replaceA l k v).length = l.length := by
  induction l with
  | nil => rfl
  | cons p t ih =>
    by_cases hk : p.1 = k
    · simp [replaceA, hk, ih]
    · simp [replaceA, hk, ih]

theorem length_insertA_present {κ α : Type} [DecidableEq κ] (l : List (κ × α)) (k : κ) (v : α)
    (h : (lookupA l k).isSome) : (insertA l k v).length = l.length := by
  simp [insertA, h, length_replaceA]

theorem length_removeA_le {κ α : Type} [DecidableEq κ] (l : List (κ × α)) (k : κ) :
    (removeA l k).length ≤ l.length :=
  List.length_filter_le _ l

theorem length_removeA_lt {κ α : Type} [DecidableEq κ] (l : List (κ × α)) (kv : κ × α)
    (h : kv ∈ l) : (removeA l kv.1).length < l.length := by
  apply List.length_filter_lt_length_iff_exists.mpr
  exact ⟨kv, h, by simp⟩

/-! ## Address manager (`components/addressmanager/src/lib.rs`)

`NetAddress` and `AddressKey` live in the (out-of-tree) `stores` module.
Modelled from the spec: an address is an (ip, port) pair, the key space of
the not-banned map is `AddressKey`, and `AddressKey::is_ip` compares the ip
component; the conversion `NetAddress -> AddressKey` is taken as the
identity on (ip, port). Ips are modelled as naturals. -/

structure NetAddress where
  ip : Nat
  port : Nat
deriving DecidableEq, Repr

/-- Entry of the not-banned address store (`stores::not_banned_address_store::Entry`):
a connection-failure counter together with the address itself. -/
structure Entry where
  connectionFailedCount : Nat
  address : NetAddress
deriving DecidableEq, Repr

def MAX_ADDRESSES : Nat := 4096

def MAX_CONNECTION_FAILED_COUNT : Nat := 3

/-- Maximum-by-failure-count of a nonempty list `x :: t`, with ties won by the
later element of the iteration, as in Rust's `Iterator::max_by`. -/
def maxByCountNe (x : NetAddress × Entry) : List (NetAddress × Entry) → NetAddress × Entry
  | [] => x
  | y :: t =>
    let m := maxByCountNe y t
    if m.2.connectionFailedCount < x.2.connectionFailedCount then x else m

/-- The victim search of `keep_limit`:
`addresses.iter().max_by(|a, b| a.1.connection_failed_count.cmp(&b.1.connection_failed_count))`.
Rust's `max_by` returns the last maximal element of the iteration. -/
def maxByCount : List (NetAddress × Entry) → Option (NetAddress × Entry)
  | [] => none
  | x :: t => some (maxByCountNe x t)

theorem maxByCountNe_mem (x : NetAddress × Entry) (t : List (NetAddress × Entry)) :
    maxByCountNe x t ∈ x :: t := by
  induction t generalizing x with
  | nil => simp [maxByCountNe]
  | cons y u ih =>
    rw [maxByCountNe]
    by_cases hlt : (maxByCountNe y u).2.connectionFailedCount < x.2.connectionFailedCount
    · simp [hlt]
    · simp only [hlt, if_false]
      exact List.mem_cons_of_mem x (ih y)

theorem maxByCountNe_max (x : NetAddress × Entry) (t : List (NetAddress × Entry)) :
    ∀ y ∈ x :: t, y.2.connectionFailedCount ≤ (maxByCountNe x t).2.connectionFailedCount := by
  induction t generalizing x with
  | nil => simp [maxByCountNe]
  | cons z u ih =>
    intro y hy
    rw [maxByCountNe]
    have hrec := ih z
    by_cases hlt : (maxByCountNe z u).2.connectionFailedCount < x.2.connectionFailedCount
    · simp only [hlt, if_true]
      rcases List.mem_cons.mp hy with hyx | hyt
      · simp [hyx]
      · have := hrec y hyt
        omega
    · simp only [hlt, if_false]
      rcases List.mem_cons.mp hy with hyx | hyt
      · subst hyx; omega
      · exact hrec y hyt

theorem maxByCount_mem (l : List (NetAddress × Entry)) (kv : NetAddress × Entry)
    (h : maxByCount l = some kv) : kv ∈ l := by
  cases l with
  | nil => simp [maxByCount] at h
  | cons x t =>
    rw [maxByCount] at h
    simp at h
    exact h ▸ maxByCountNe_mem x t

theorem maxByCount_max (l : List (NetAddress × Entry)) (kv : NetAddress × Entry)
    (h : maxByCount l = some kv) :
    ∀ x ∈ l, x.2.connectionFailedCount ≤ kv.2.connectionFailedCount := by
  cases l with
  | nil => simp [maxByCount] at h
  | cons x t =>
    rw [maxByCount] at h
    simp at h
    exact h ▸ maxByCountNe_max x t

/-- Fuelled body of `Store::keep_limit`:
`while self.addresses.len() > MAX_ADDRESSES { let to_remove = ...max_by(count)...; self.remove_by_key(*to_remove.0); }`.
Each iteration removes a present key, so a fuel of the initial length is
enough for the loop to reach its guard. -/
def keepLimitGo : Nat → List (NetAddress × Entry) → List (NetAddress × Entry)
  | 0, l => l
  | fuel + 1, l =>
    if l.length ≤ MAX_ADDRESSES then l
    else
      match maxByCount l with
      | none => l
      | some kv => keepLimitGo fuel (removeA l kv.1)

def keepLimit (l : List (NetAddress × Entry)) : List (NetAddress × Entry) :=
  keepLimitGo l.length l

theorem keepLimitGo_of_le (fuel : Nat) (l : List (NetAddress × Entry))
    (h : l.length ≤ MAX_ADDRESSES) : keepLimitGo fuel l = l := by
  cases fuel with
  | zero => rfl
  | succ n => simp [keepLimitGo, h]

theorem keepLimit_of_le (l : List (NetAddress × Entry)) (h : l.length ≤ MAX_ADDRESSES) :
    keepLimit l = l :=
  keepLimitGo_of_le l.length l h

theorem maxByCount_none (l : List (NetAddress × Entry)) : maxByCount l = none ↔ l = [] := by
  cases l <;> simp [maxByCount]

theorem keepLimitGo_length (fuel : Nat) (l : List (NetAddress × Entry))
    (h : l.length ≤ MAX_ADDRESSES + fuel) : (keepLimitGo fuel l).length ≤ MAX_ADDRESSES := by
  induction fuel generalizing l with
  | zero => simp only [keepLimitGo]; omega
  | succ n ih =>
    rw [keepLimitGo]
    by_cases hle : l.length ≤ MAX_ADDRESSES
    · simp [hle]
    · simp only [hle, if_false]
      have hne : l ≠ [] := by
        intro hc
        rw [hc] at hle
        simp [MAX_ADDRESSES] at hle
      cases hm : maxByCount l with
      | none => exact absurd ((maxByCount_none l).mp hm) hne
      | some kv =>
        apply ih
        have hlt := length_removeA_lt l kv (maxByCount_mem l kv hm)
        omega

theorem keepLimit_length (l : List (NetAddress × Entry)) :
    (keepLimit l).length ≤ MAX_ADDRESSES :=
  keepLimitGo_length l.length l (by omega)

theorem keepLimitGo_fuel_irrel (fuel fuel' : Nat) (l : List (NetAddress × Entry))
    (h : l.length ≤ MAX_ADDRESSES + fuel) (h' : l.length ≤ MAX_ADDRESSES + fuel') :
    keepLimitGo fuel l = keepLimitGo fuel' l := by
  induction fuel generalizing fuel' l with
  | zero =>
    have : l.length ≤ MAX_ADDRESSES := by omega
    rw [keepLimitGo_of_le _ _ this, keepLimitGo_of_le _ _ this]
  | succ n ih =>
    by_cases hle : l.length ≤ MAX_ADDRESSES
    · rw [keepLimitGo_of_le _ _ hle, keepLimitGo_of_le _ _ hle]
    · cases fuel' with
      | zero => omega
      | succ m =>
        rw [keepLimitGo, keepLimitGo]
        simp only [hle, if_false]
        have hne : l ≠ [] := by
          intro hc
          rw [hc] at hle
          simp [MAX_ADDRESSES] at hle
        cases hm : maxByCount l with
        | none => exact absurd ((maxByCount_none l).mp hm) hne
        | some kv =>
          have hlt := length_removeA_lt l kv (maxByCount_mem l kv hm)
          exact ih m (removeA l kv.1) (by omega) (by omega)

theorem keepLimit_step (l : List (NetAddress × Entry)) (kv : NetAddress × Entry)
    (hgt : MAX_ADDRESSES < l.length) (hm : maxByCount l = some kv) :
    keepLimit l = keepLimit (removeA l kv.1) := by
  have hlt := length_removeA_lt l kv (maxByCount_mem l kv hm)
  unfold keepLimit
  cases hn : l.length with
  | zero => omega
  | succ n =>
    rw [keepLimitGo]
    have hle : ¬ l.length ≤ MAX_ADDRESSES := by omega
    simp only [hle, if_false, hm]
    exact keepLimitGo_fuel_irrel n (removeA l kv.1).length (removeA l kv.1) (by omega) (by omega)

/-- State of `AddressManager`: the in-memory mirror of the not-banned address
store (`not_banned_address_store_with_cache::Store.addresses`) and the banned
address store (ip to ban timestamp). -/
structure AddressManagerState where
  notBanned : List (NetAddress × Entry)
  banned : List (Nat × Nat)
deriving DecidableEq, Repr

/-- `Store::set`: build the entry (keeping the stored address when the key is
already present), insert it into the map, then enforce the cap. -/
def storeSet (l : List (NetAddress × Entry)) (address : NetAddress)
    (connectionFailedCount : Nat) : List (NetAddress × Entry) :=
  let entry :=
    match lookupA l address with
    | some e => { connectionFailedCount := connectionFailedCount, address := e.address }
    | none => { connectionFailedCount := connectionFailedCount, address := address }
  keepLimit (insertA l address entry)

/-- `AddressManager::add_address`: no-op when present, else insert with
connection-failed count 1. -/
def addAddress (s : AddressManagerState) (address : NetAddress) : AddressManagerState :=
  if (lookupA s.notBanned address).isSome then s
  else { s with notBanned := storeSet s.notBanned address 1 }

/-- `AddressManager::mark_connection_failure`: no-op when absent; otherwise
increment the count, removing the entry when the new count exceeds
`MAX_CONNECTION_FAILED_COUNT`. -/
def markConnectionFailure (s : AddressManagerState) (address : NetAddress) :
    AddressManagerState :=
  match lookupA s.notBanned address with
  | none => s
  | some e =>
    if MAX_CONNECTION_FAILED_COUNT < e.connectionFailedCount + 1 then
      { s with notBanned := removeA s.notBanned address }
    else
      { s with notBanned := storeSet s.notBanned address (e.connectionFailedCount + 1) }

/-- `AddressManager::mark_connection_success`: no-op when absent; otherwise
reset the count to 0. -/
def markConnectionSuccess (s : AddressManagerState) (address : NetAddress) :
    AddressManagerState :=
  match lookupA s.notBanned address with
  | none => s
  | some _ => { s with notBanned := storeSet s.notBanned address 0 }

/-- `AddressManager::ban`: record the ban timestamp and purge all not-banned
entries whose key matches the ip (`Store::remove_by_ip`). -/
def ban (s : AddressManagerState) (ip now : Nat) : AddressManagerState :=
  { banned := insertA s.banned ip now,
    notBanned := s.notBanned.filter (fun p => decide (p.1.ip ≠ ip)) }

/-- `AddressManager::unban`: drop the ban record. -/
def unban (s : AddressManagerState) (ip : Nat) : AddressManagerState :=
  { s with banned := removeA s.banned ip }

def MAX_BANNED_TIME : Nat := 24 * 60 * 60 * 1000

/-- Wrapping `u64` subtraction, as performed by `unix_now() - timestamp.0` in
release builds. -/
def sub64 (a b : Nat) : Nat := (2 ^ 64 + a - b) % 2 ^ 64

/-- `AddressManager::is_banned`: look the ip up in the banned store; an entry
older than `MAX_BANNED_TIME` is lazily unbanned and reported not banned. The
current time is passed explicitly (`unix_now()` in the code). Returns the
result together with the possibly changed state. -/
def isBanned (s : AddressManagerState) (ip now : Nat) : Bool × AddressManagerState :=
  match lookupA s.banned ip with
  | some ts => if MAX_BANNED_TIME < sub64 now ts then (false, unban s ip) else (true, s)
  | none => (false, s)

/-- The five public mutating operations of `AddressManager`. -/
inductive AMOp where
  | addAddressOp (a : NetAddress)
  | markFailureOp (a : NetAddress)
  | markSuccessOp (a : NetAddress)
  | banOp (ip now : Nat)
  | unbanOp (ip : Nat)

def amStep (s : AddressManagerState) : AMOp → AddressManagerState
  | .addAddressOp a => addAddress s a
  | .markFailureOp a => markConnectionFailure s a
  | .markSuccessOp a => markConnectionSuccess s a
  | .banOp ip now => ban s ip now
  | .unbanOp ip => unban s ip

/-- `mark_connection_failure` called `n` times in sequence. -/
def markFailureN (a : NetAddress) : Nat → AddressManagerState → AddressManagerState
  | 0, s => s
  | n + 1, s => markFailureN a n (markConnectionFailure s a)

theorem storeSet_present (l : List (NetAddress × Entry)) (a : NetAddress) (c : Nat) (e : Entry)
    (hget : lookupA l a = some e) (hlen : l.length ≤ MAX_ADDRESSES) :
    lookupA (storeSet l a c) a = some { connectionFailedCount := c, address := e.address } ∧
      (storeSet l a c).length = l.length := by
  have hsome : (lookupA l a).isSome := by rw [hget]; rfl
  have hlen' : (insertA l a { connectionFailedCount := c, address := e.address }).length
      = l.length := length_insertA_present l a _ hsome
  have hkl : keepLimit (insertA l a { connectionFailedCount := c, address := e.address })
      = insertA l a { connectionFailedCount := c, address := e.address } :=
    keepLimit_of_le _ (by omega)
  constructor
  · simp only [storeSet, hget, hkl]
    exact lookupA_insertA_self l a _
  · simp only [storeSet, hget, hkl]
    omega

theorem markConnectionFailure_absent (s : AddressManagerState) (a : NetAddress)
    (h : lookupA s.notBanned a = none) : markConnectionFailure s a = s := by
  simp [markConnectionFailure, h]

theorem markConnectionSuccess_absent (s : AddressManagerState) (a : NetAddress)
    (h : lookupA s.notBanned a = none) : markConnectionSuccess s a = s := by
  simp [markConnectionSuccess, h]

theorem markFailureN_absent (a : NetAddress) (n : Nat) (s : AddressManagerState)
    (h : lookupA s.notBanned a = none) : markFailureN a n s = s := by
  induction n with
  | zero => rfl
  | succ m ih =>
    rw [markFailureN, markConnectionFailure_absent s a h]
    exact ih

theorem markFailureN_ok (a : NetAddress) (n : Nat) :
    ∀ (s : AddressManagerState) (e : Entry), lookupA s.notBanned a = some e →
    s.notBanned.length ≤ MAX_ADDRESSES →
    e.connectionFailedCount + n ≤ MAX_CONNECTION_FAILED_COUNT →
    lookupA (markFailureN a n s).notBanned a
        = some { connectionFailedCount := e.connectionFailedCount + n, address := e.address } ∧
      (markFailureN a n s).notBanned.length = s.notBanned.length := by
  induction n with
  | zero =>
    intro s e hget _ _
    simpa [markFailureN] using hget
  | succ m ih =>
    intro s e hget hlen hcnt
    rw [markFailureN]
    have hno : ¬ MAX_CONNECTION_FAILED_COUNT < e.connectionFailedCount + 1 := by
      simp only [MAX_CONNECTION_FAILED_COUNT] at hcnt ⊢
      omega
    have hstep : markConnectionFailure s a
        = { s with notBanned := storeSet s.notBanned a (e.connectionFailedCount + 1) } := by
      simp [markConnectionFailure, hget, hno]
    obtain ⟨hs1, hs2⟩ := storeSet_present s.notBanned a (e.connectionFailedCount + 1) e hget hlen
    rw [hstep]
    obtain ⟨h1, h2⟩ := ih { s with notBanned := storeSet s.notBanned a (e.connectionFailedCount + 1) }
      { connectionFailedCount := e.connectionFailedCount + 1, address := e.address }
      hs1 (by simpa [hs2] using hlen) (by simp only [MAX_CONNECTION_FAILED_COUNT] at hcnt ⊢; omega)
    refine ⟨?_, by simpa [hs2] using h2⟩
    rw [h1]
    have : e.connectionFailedCount + 1 + m = e.connectionFailedCount + (m + 1) := by omega
    rw [this]

theorem markFailureN_evict (a : NetAddress) (n : Nat) :
    ∀ (s : AddressManagerState) (e : Entry), lookupA s.notBanned a = some e →
    s.notBanned.length ≤ MAX_ADDRESSES → 1 ≤ n →
    MAX_CONNECTION_FAILED_COUNT < e.connectionFailedCount + n →
    lookupA (markFailureN a n s).notBanned a = none := by
  induction n with
  | zero => intro _ _ _ _ h1 _; omega
  | succ m ih =>
    intro s e hget hlen _ hcnt
    rw [markFailureN]
    by_cases hev : MAX_CONNECTION_FAILED_COUNT < e.connectionFailedCount + 1
    · have hstep : markConnectionFailure s a
          = { s with notBanned := removeA s.notBanned a } := by
        simp [markConnectionFailure, hget, hev]
      rw [hstep]
      rw [markFailureN_absent a m _ (lookupA_removeA_self s.notBanned a)]
      exact lookupA_removeA_self s.notBanned a
    · have hstep : markConnectionFailure s a
          = { s with notBanned := storeSet s.notBanned a (e.connectionFailedCount + 1) } := by
        simp [markConnectionFailure, hget, hev]
      obtain ⟨hs1, hs2⟩ := storeSet_present s.notBanned a (e.connectionFailedCount + 1) e hget hlen
      rw [hstep]
      have hm1 : 1 ≤ m := by
        simp only [MAX_CONNECTION_FAILED_COUNT] at hev hcnt
        omega
      exact ih _ _ hs1 (by simpa [hs2] using hlen) hm1
        (by simp only [MAX_CONNECTION_FAILED_COUNT] at hcnt ⊢; omega)

/-- Claim C5 counterexample fixture: a directory holding one address whose
connection-failed count is 1 (the value `add_address` stores). -/
def sampleAddr : NetAddress := { ip := 7, port := 16111 }

def sampleAMState : AddressManagerState :=
  { notBanned := [(sampleAddr, { connectionFailedCount := 1, address := sampleAddr })],
    banned := [] }

/-- Claim C5, as stated, is false: three connection failures on an address
stored with count 1 push the count past `MAX_CONNECTION_FAILED_COUNT`, so the
entry is evicted; the subsequent `mark_connection_success` is a no-op on the
absent address, which therefore ends absent rather than present with count 0. -/
theorem mark_failure_success_claim_counterexample :
    (lookupA sampleAMState.notBanned sampleAddr).isSome = true ∧
      lookupA (markConnectionSuccess (markFailureN sampleAddr 3 sampleAMState)
        sampleAddr).notBanned sampleAddr = none := by
  decide

/-- Claim C5 (amended). For an address present with count `c` in a directory
within the cap: if `c + n` stays at most `MAX_CONNECTION_FAILED_COUNT`,
calling `mark_connection_failure` `n` times and then
`mark_connection_success` once leaves the address present with count 0;
if `n ≥ 1` and `c + n` exceeds the bound, the failures evict the address and
it ends absent. -/
theorem mark_failure_then_success (s : AddressManagerState) (a : NetAddress) (e : Entry)
    (n : Nat) (hlen : s.notBanned.length ≤ MAX_ADDRESSES)
    (hget : lookupA s.notBanned a = some e) :
    (e.connectionFailedCount + n ≤ MAX_CONNECTION_FAILED_COUNT →
      lookupA (markConnectionSuccess (markFailureN a n s) a).notBanned a
        = some { connectionFailedCount := 0, address := e.address }) ∧
    (1 ≤ n → MAX_CONNECTION_FAILED_COUNT < e.connectionFailedCount + n →
      lookupA (markConnectionSuccess (markFailureN a n s) a).notBanned a = none) := by
  constructor
  · intro hcnt
    obtain ⟨h1, h2⟩ := markFailureN_ok a n s e hget hlen hcnt
    have hsucc : markConnectionSuccess (markFailureN a n s) a
        = { markFailureN a n s with notBanned := storeSet (markFailureN a n s).notBanned a 0 } := by
      simp [markConnectionSuccess, h1]
    rw [hsucc]
    exact (storeSet_present _ a 0 _ h1 (by omega)).1
  · intro hn hcnt
    have h1 := markFailureN_evict a n s e hget hlen hn hcnt
    rw [markConnectionSuccess_absent _ _ h1]
    exact h1

/-- Witness for the amended claim C5 at a concrete input: starting count 1
and two failures stay within the bound, so the final count is 0. -/
theorem mark_failure_then_success_witness :
    lookupA (markConnectionSuccess (markFailureN sampleAddr 2 sampleAMState)
        sampleAddr).notBanned sampleAddr
      = some { connectionFailedCount := 0, address := sampleAddr } :=
  (mark_failure_then_success sampleAMState sampleAddr
    { connectionFailedCount := 1, address := sampleAddr } 2 (by decide) (by decide)).1 (by decide)

/-- Claim C10: on an address absent from the not-banned directory, both
`mark_connection_failure` and `mark_connection_success` leave the entire
state (not-banned directory and banned map) unchanged. -/
theorem mark_absent_is_noop (s : AddressManagerState) (a : NetAddress)
    (h : lookupA s.notBanned a = none) :
    markConnectionFailure s a = s ∧ markConnectionSuccess s a = s :=
  ⟨markConnectionFailure_absent s a h, markConnectionSuccess_absent s a h⟩

def emptyAMState : AddressManagerState := { notBanned := [], banned := [] }

/-- Witness for claim C10 at a concrete input. -/
theorem mark_absent_is_noop_witness :
    markConnectionFailure emptyAMState sampleAddr = emptyAMState ∧
      markConnectionSuccess emptyAMState sampleAddr = emptyAMState :=
  mark_absent_is_noop emptyAMState sampleAddr (by decide)

theorem storeSet_length_le (l : List (NetAddress × Entry)) (a : NetAddress) (c : Nat) :
    (storeSet l a c).length ≤ MAX_ADDRESSES := by
  simp only [storeSet]
  exact keepLimit_length _

/-- Claim C8: every `AddressManager` operation keeps the not-banned directory
at or below `MAX_ADDRESSES` entries, and whenever the map is over the cap,
`keep_limit` evicts an entry of maximum connection-failed count and repeats
until the cap holds. -/
theorem address_directory_cap (s : AddressManagerState) (op : AMOp)
    (h : s.notBanned.length ≤ MAX_ADDRESSES) :
    (amStep s op).notBanned.length ≤ MAX_ADDRESSES ∧
    (∀ l : List (NetAddress × Entry), MAX_ADDRESSES < l.length →
      ∃ kv, maxByCount l = some kv ∧ kv ∈ l ∧
        (∀ x ∈ l, x.2.connectionFailedCount ≤ kv.2.connectionFailedCount) ∧
        keepLimit l = keepLimit (removeA l kv.1)) := by
  constructor
  · cases op with
    | addAddressOp a =>
      simp only [amStep, addAddress]
      by_cases hs : (lookupA s.notBanned a).isSome
      · simpa [hs] using h
      · simp only [hs, if_false]
        exact storeSet_length_le _ _ _
    | markFailureOp a =>
      simp only [amStep, markConnectionFailure]
      cases hget : lookupA s.notBanned a with
      | none => simpa using h
      | some e =>
        by_cases hev : MAX_CONNECTION_FAILED_COUNT < e.connectionFailedCount + 1
        · simp only [hev, if_true]
          exact le_trans (length_removeA_le _ _) h
        · simp only [hev, if_false]
          exact storeSet_length_le _ _ _
    | markSuccessOp a =>
      simp only [amStep, markConnectionSuccess]
      cases hget : lookupA s.notBanned a with
      | none => simpa using h
      | some e => exact storeSet_length_le _ _ _
    | banOp ip now =>
      simp only [amStep, ban]
      exact le_trans (List.length_filter_le _ _) h
    | unbanOp ip =>
      simpa [amStep, unban] using h
  · intro l hl
    have hne : l ≠ [] := by
      intro hc
      rw [hc] at hl
      simp [MAX_ADDRESSES] at hl
    cases hm : maxByCount l with
    | none => exact absurd ((maxByCount_none l).mp hm) hne
    | some kv =>
      exact ⟨kv, rfl, maxByCount_mem l kv hm, maxByCount_max l kv hm,
        keepLimit_step l kv hl hm⟩

/-- Witness for claim C8 at a concrete input. -/
theorem address_directory_cap_witness :
    (amStep sampleAMState (AMOp.markFailureOp sampleAddr)).notBanned.length
      ≤ MAX_ADDRESSES :=
  (address_directory_cap sampleAMState (AMOp.markFailureOp sampleAddr) (by decide)).1

theorem sub64_eq_sub (a b : Nat) (hba : b ≤ a) (ha : a < 2 ^ 64) : sub64 a b = a - b := by
  unfold sub64
  rw [Nat.add_sub_assoc hba, Nat.add_mod_left]
  exact Nat.mod_eq_of_lt (by omega)

/-- Claim C9: for ban records written in the past, `is_banned` answers true
exactly when a record exists whose age is at most `MAX_BANNED_TIME`; an
older record is lazily removed and reported not banned; a missing record
reports not banned and leaves the state untouched. -/
theorem is_banned_iff_fresh_record (s : AddressManagerState) (ip now : Nat)
    (hnow : now < 2 ^ 64)
    (hts : ∀ ts, lookupA s.banned ip = some ts → ts ≤ now) :
    ((isBanned s ip now).1 = true ↔
      ∃ ts, lookupA s.banned ip = some ts ∧ now - ts ≤ MAX_BANNED_TIME) ∧
    (∀ ts, lookupA s.banned ip = some ts → MAX_BANNED_TIME < now - ts →
      (isBanned s ip now).1 = false ∧
        lookupA (isBanned s ip now).2.banned ip = none) ∧
    (lookupA s.banned ip = none → isBanned s ip now = (false, s)) := by
  refine ⟨?_, ?_, ?_⟩
  · cases hlk : lookupA s.banned ip with
    | none => simp [isBanned, hlk]
    | some ts =>
      have hle : ts ≤ now := hts ts hlk
      have hsub : sub64 now ts = now - ts := sub64_eq_sub now ts hle hnow
      by_cases hexp : MAX_BANNED_TIME < sub64 now ts
      · simp [isBanned, hlk, hexp]
        omega
      · simp [isBanned, hlk, hexp]
        omega
  · intro ts hlk hage
    have hle : ts ≤ now := hts ts hlk
    have hsub : sub64 now ts = now - ts := sub64_eq_sub now ts hle hnow
    have hexp : MAX_BANNED_TIME < sub64 now ts := by omega
    simp only [isBanned, hlk]
    rw [if_pos hexp]
    exact ⟨rfl, lookupA_removeA_self s.banned ip⟩
  · intro hlk
    simp [isBanned, hlk]

def sampleBannedState : AddressManagerState :=
  { notBanned := [], banned := [(7, 1000)] }

/-- Witness for claim C9 at a concrete input: a record 500 ms old is banned. -/
theorem is_banned_iff_fresh_record_witness :
    (isBanned sampleBannedState 7 1500).1 = true :=
  (is_banned_iff_fresh_record sampleBannedState 7 1500 (by norm_num)
    (by intro ts hts; simp [sampleBannedState, lookupA] at hts; omega)).1.mpr
    ⟨1000, by decide, by decide⟩

/-! ## Randomized address sampling (`Store::get_randomized_addresses`)

The Rust loop draws `addresses.len()` samples from a `WeightedIndex` over the
current weight vector, zeroing the weight of each drawn index. The `rand`
crate's sampler is external code; it is modelled by a universally quantified
choice oracle, constrained only by the `WeightedIndex` contract that a drawn
index is in range and has nonzero weight (`pickValid` falls back to the first
nonzero-weight index when the oracle violates the contract, so every oracle
describes a run the contract allows). -/

def nonzeroWeight (q : Nat × NetAddress) : Bool := decide (q.1 ≠ 0)

def getRandomizedWeight (e : Entry) : Nat :=
  64 ^ (MAX_CONNECTION_FAILED_COUNT + 1 - e.connectionFailedCount)

def pickValid (choice : List (Nat × NetAddress) → Nat) (l : List (Nat × NetAddress)) : Nat :=
  match l[choice l]? with
  | some p => if p.1 ≠ 0 then choice l else l.findIdx nonzeroWeight
  | none => l.findIdx nonzeroWeight

def sampleLoop (choice : List (Nat × NetAddress) → Nat) :
    Nat → List (Nat × NetAddress) → List NetAddress
  | 0, _ => []
  | n + 1, l =>
    match l[pickValid choice l]? with
    | some p => p.2 :: sampleLoop choice n (l.set (pickValid choice l) (0, p.2))
    | none => []

/-- `Store::get_randomized_addresses`: filter the exceptions out, weight every
remaining entry by `getRandomizedWeight`, then draw `addresses.len()` samples
without replacement. -/
def getRandomizedAddresses (choice : List (Nat × NetAddress) → Nat)
    (l : List (NetAddress × Entry)) (exceptions : List NetAddress) : List NetAddress :=
  let addresses := l.filter (fun p => decide (¬ p.1 ∈ exceptions))
  let weighted := addresses.map (fun p => (getRandomizedWeight p.2, p.2.address))
  sampleLoop choice addresses.length weighted

theorem pickValid_spec (choice : List (Nat × NetAddress) → Nat)
    (l : List (Nat × NetAddress)) (h : 0 < l.countP nonzeroWeight) :
    ∃ p, l[pickValid choice l]? = some p ∧ p.1 ≠ 0 := by
  have hex : ∃ q ∈ l, nonzeroWeight q = true := List.countP_pos_iff.mp h
  have hidx : l.findIdx nonzeroWeight < l.length := List.findIdx_lt_length_of_exists hex
  have hfallback : ∃ p, l[l.findIdx nonzeroWeight]? = some p ∧ p.1 ≠ 0 := by
    refine ⟨l.get ⟨l.findIdx nonzeroWeight, hidx⟩, List.getElem?_eq_getElem hidx, ?_⟩
    have := @List.findIdx_getElem _ nonzeroWeight l hidx
    simpa [nonzeroWeight] using this
  cases hli : l[choice l]? with
  | none =>
    have hpv : pickValid choice l = l.findIdx nonzeroWeight := by
      unfold pickValid
      rw [hli]
    rw [hpv]
    exact hfallback
  | some p0 =>
    by_cases h0 : p0.1 ≠ 0
    · have hpv : pickValid choice l = choice l := by
        unfold pickValid
        rw [hli]
        simp [h0]
      rw [hpv]
      exact ⟨p0, hli, h0⟩
    · have hpv : pickValid choice l = l.findIdx nonzeroWeight := by
        unfold pickValid
        rw [hli]
        simp [h0]
      rw [hpv]
      exact hfallback

theorem filter_set_perm (l : List (Nat × NetAddress)) (i : Nat) (p : Nat × NetAddress)
    (hget : l[i]? = some p) (hp : p.1 ≠ 0) :
    (l.filter nonzeroWeight).Perm
      (p :: (l.set i (0, p.2)).filter nonzeroWeight) := by
  induction l generalizing i with
  | nil => simp at hget
  | cons x t ih =>
    cases i with
    | zero =>
      simp only [List.getElem?_cons_zero] at hget
      injection hget with hget
      subst hget
      have hx : nonzeroWeight x = true := by simp [nonzeroWeight, hp]
      simp [List.set_cons_zero, List.filter_cons, hx, nonzeroWeight, hp]
    | succ j =>
      simp only [List.getElem?_cons_succ] at hget
      have hrec := ih j hget
      rw [List.set_cons_succ]
      by_cases hx : nonzeroWeight x = true
      · simp only [List.filter_cons, hx, if_true]
        exact (hrec.cons x).trans (List.Perm.swap p x _)
      · have hx' : nonzeroWeight x = false := by
          cases hnw : nonzeroWeight x
          · rfl
          · exact absurd hnw hx
        simp only [List.filter_cons, hx', Bool.false_eq_true, if_false]
        exact hrec

theorem countP_set_nonzero (l : List (Nat × NetAddress)) (i : Nat) (p : Nat × NetAddress)
    (hget : l[i]? = some p) (hp : p.1 ≠ 0) :
    (l.set i (0, p.2)).countP nonzeroWeight + 1 = l.countP nonzeroWeight := by
  have hperm := filter_set_perm l i p hget hp
  have hlen := hperm.length_eq
  simp only [List.length_cons] at hlen
  simp only [List.countP_eq_length_filter]
  omega

theorem sampleLoop_perm (choice : List (Nat × NetAddress) → Nat) (n : Nat) :
    ∀ l : List (Nat × NetAddress), l.countP nonzeroWeight = n →
    (sampleLoop choice n l).Perm ((l.filter nonzeroWeight).map (fun q => q.2)) := by
  induction n with
  | zero =>
    intro l hc
    have : l.filter nonzeroWeight = [] := by
      rw [List.filter_eq_nil_iff]
      intro a ha
      have := List.countP_eq_zero.mp hc a ha
      simpa using this
    simp [sampleLoop, this]
  | succ m ih =>
    intro l hc
    obtain ⟨p, hget, hp⟩ := pickValid_spec choice l (by omega)
    have hcount : (l.set (pickValid choice l) (0, p.2)).countP nonzeroWeight = m := by
      have := countP_set_nonzero l (pickValid choice l) p hget hp
      omega
    have hrec := ih (l.set (pickValid choice l) (0, p.2)) hcount
    have hperm := filter_set_perm l (pickValid choice l) p hget hp
    simp only [sampleLoop, hget]
    refine (hrec.cons p.2).trans ?_
    simpa using (hperm.map (fun q => q.2)).symm

/-- Claim C7: for every choice oracle respecting the `WeightedIndex` contract,
`get_randomized_addresses` returns a permutation of the directory minus the
exceptions (each such address exactly once), and the sampling weight attached
to an entry is `64 ^ (MAX_CONNECTION_FAILED_COUNT + 1 - connection_failed_count)`
and is positive, so sampling is without replacement over exactly these
entries. -/
theorem get_randomized_addresses_permutation (choice : List (Nat × NetAddress) → Nat)
    (l : List (NetAddress × Entry)) (exceptions : List NetAddress) :
    (getRandomizedAddresses choice l exceptions).Perm
      ((l.filter (fun p => decide (¬ p.1 ∈ exceptions))).map (fun p => p.2.address)) ∧
    ∀ e : Entry,
      getRandomizedWeight e
          = 64 ^ (MAX_CONNECTION_FAILED_COUNT + 1 - e.connectionFailedCount) ∧
        0 < getRandomizedWeight e := by
  constructor
  · unfold getRandomizedAddresses
    have hall : ∀ q ∈ (l.filter (fun p => decide (¬ p.1 ∈ exceptions))).map
        (fun p => (getRandomizedWeight p.2, p.2.address)), nonzeroWeight q = true := by
      intro q hq
      obtain ⟨p, _, hpq⟩ := List.mem_map.mp hq
      have hpos : 0 < getRandomizedWeight p.2 :=
        Nat.pos_pow_of_pos _ (by norm_num)
      subst hpq
      simp [nonzeroWeight]
      omega
    have hcount : ((l.filter (fun p => decide (¬ p.1 ∈ exceptions))).map
        (fun p => (getRandomizedWeight p.2, p.2.address))).countP nonzeroWeight
        = (l.filter (fun p => decide (¬ p.1 ∈ exceptions))).length := by
      rw [List.countP_eq_length.mpr hall]
      simp
    have hmain := sampleLoop_perm choice
      (l.filter (fun p => decide (¬ p.1 ∈ exceptions))).length
      ((l.filter (fun p => decide (¬ p.1 ∈ exceptions))).map
        (fun p => (getRandomizedWeight p.2, p.2.address))) hcount
    have hfix : ((l.filter (fun p => decide (¬ p.1 ∈ exceptions))).map
        (fun p => (getRandomizedWeight p.2, p.2.address))).filter nonzeroWeight
        = (l.filter (fun p => decide (¬ p.1 ∈ exceptions))).map
            (fun p => (getRandomizedWeight p.2, p.2.address)) :=
      List.filter_eq_self.mpr hall
    rw [hfix] at hmain
    simpa using hmain
  · intro e
    exact ⟨rfl, Nat.pos_pow_of_pos _ (by norm_num)⟩

/-! ## Header processor (`consensus/src/pipeline/header_processor/processor.rs`)

Hashes are modelled as naturals (content addresses; only equality and the
lexicographic tiebreak order are used). `ORIGIN`, the virtual root, is a
distinguished value. -/

abbrev Hash := Nat

def ORIGIN : Hash := 0

/-- Modelled from the spec: the block status lifecycle values; the header
processor itself writes only `StatusHeaderOnly` and `StatusInvalid`
(`consensus_core::blockstatus` is outside the analysed tree). -/
inductive BlockStatus where
  | StatusHeaderOnly
  | StatusInvalid
  | StatusValid
  | StatusUTXOPendingVerification
  | StatusDisqualified
  | StatusHeaderOnlyDisqualified
deriving DecidableEq, Repr

/-- Modelled from the spec: the error taxonomy surfaced by the core
(`RuleError` lives outside the analysed tree); only the constructors named
by the spec are carried. -/
inductive RuleError where
  | KnownInvalid
  | ParentNotFound
  | MissingParents
  | InvalidHeaderStructure
  | DifficultyMismatch
  | InvalidProofOfWork
  | MergesetTooLarge
  | StoreError
deriving DecidableEq, Repr

/-- The header fields the processor consumes: hash, direct parents,
blue-work accumulator, timestamp and difficulty bits. -/
structure Header where
  hash : Hash
  directParents : List Hash
  blueWork : Nat
  timestamp : Nat
  bits : Nat
deriving DecidableEq, Repr

/-- Per-level GHOSTDAG record; the processor stores it opaquely and reads
only the selected parent (for the reachability parent) from it. -/
structure GhostdagData where
  selectedParent : Hash
  blueScore : Nat
  blueWork : Nat
  mergesetBlues : List Hash
  mergesetReds : List Hash
deriving DecidableEq, Repr, Inhabited

/-- `SortableBlock` of `processes/ghostdag/ordering.rs`. The hash field is
spelled `Nat` (the definition of `Hash`) so that arithmetic automation sees
through it. -/
structure SortableBlock where
  hash : Nat
  blueWork : Nat
deriving DecidableEq, Repr

/-- Modelled from the spec: the `SortableBlock` strict order compares
blue-work first and breaks ties by the (lexicographic, here numeric) hash
(`ordering.rs` is outside the analysed tree). -/
def sortLt (a b : SortableBlock) : Bool :=
  decide (a.blueWork < b.blueWork ∨ (a.blueWork = b.blueWork ∧ a.hash < b.hash))

/-- The persistent stores `commit_header` writes, as functional maps, plus
the headers-selected-tip and the pruning point. Reachability is modelled as
hash to chosen reachability-parent (membership plus the `add_block`
parent argument). -/
structure HPState where
  statuses : Hash → Option BlockStatus
  relations : Nat → Hash → Option (List Hash)
  ghostdag : Nat → Hash → Option GhostdagData
  reachability : Hash → Option Hash
  headers : Hash → Option (Header × Nat)
  daa : Hash → Option (List Hash)
  depth : Hash → Option (Hash × Hash)
  hst : SortableBlock
  pruningPoint : Hash

/-- Point update of a functional map. -/
def updFun {α : Type} (f : Hash → Option α) (k : Hash) (v : α) : Hash → Option α :=
  fun x => if x = k then some v else f x

/-- Point update of a level-indexed functional map. -/
def updFun2 {α : Type} (f : Nat → Hash → Option α) (lvl : Nat) (k : Hash) (v : α) :
    Nat → Hash → Option α :=
  fun l x => if l = lvl ∧ x = k then some v else f l x

/-- The abstract collaborators of `HeaderProcessor`: configuration, the
parents manager (`parents_at_level`), the per-level ghostdag managers and the
three validation passes. The validations are out-of-tree code
(`pre_ghostdag_validation` yields the block level it stores in the context,
`pre_pow_validation` the mergeset-non-DAA set, `post_pow_validation` the
merge-depth root and finality point); their internals are irrelevant to the
claims, which quantify over them. -/
structure HeaderProcessor where
  maxBlockLevel : Nat
  parentsAtLevel : Header → Nat → List Hash
  ghostdagManager : Nat → List Hash → GhostdagData
  preGhostdagValidation : HPState → Header → Bool → Except RuleError Nat
  prePowValidation : HPState → Header → Except RuleError (List Hash)
  postPowValidation : HPState → Header → Except RuleError (Hash × Hash)

/-- The `non_pruned_parents` computation of `process_header` (context
construction): for each level up to `max_block_level`, a genesis header
(empty direct parents) gets `[ORIGIN]`; otherwise the parents-at-level are
filtered by presence in `relations[level]`, with `[ORIGIN]` substituted for
an empty filter result. -/
def mkNonPrunedParents (p : HeaderProcessor) (s : HPState) (header : Header) :
    List (List Hash) :=
  (List.range (p.maxBlockLevel + 1)).map (fun level =>
    if header.directParents = [] then [ORIGIN]
    else
      let filtered := (p.parentsAtLevel header level).filter
        (fun parent => (s.relations level parent).isSome)
      if filtered = [] then [ORIGIN] else filtered)

/-- The context fields `commit_header` consumes
(`HeaderProcessingContext` after validation). -/
structure CommitCtx where
  nonPrunedParents : List (List Hash)
  ghostdagData : List GhostdagData
  mergesetNonDaa : List Hash
  depthInfo : Option (Hash × Hash)
  blockLevel : Nat

def toSortable (header : Header) : SortableBlock :=
  { hash := header.hash, blueWork := header.blueWork }

/-- `commit_header`: writes the ghostdag data per level (skipping levels
already present), the DAA mergeset, the header (if absent), the depth info
(when computed), stages reachability for the hash (if absent) with the
reachability parent (`ORIGIN` when the level-0 non-pruned parents are
exactly `[ORIGIN]`, else the level-0 selected parent), advances the
headers-selected-tip when the new `SortableBlock` strictly exceeds the
previous one, inserts relations per level (filtered by ghostdag presence,
skipping levels already present) and sets the status to `StatusHeaderOnly`;
all flushed as one batch. -/
def commitHeader (p : HeaderProcessor) (s : HPState) (header : Header) (ctx : CommitCtx) :
    HPState :=
  let gd1 := (List.range ctx.ghostdagData.length).foldl
    (fun g lvl =>
      if (g lvl header.hash).isSome then g
      else updFun2 g lvl header.hash (ctx.ghostdagData.getD lvl default))
    s.ghostdag
  let daa1 := updFun s.daa header.hash ctx.mergesetNonDaa
  let headers1 :=
    if (s.headers header.hash).isSome then s.headers
    else updFun s.headers header.hash (header, ctx.blockLevel)
  let depth1 :=
    match ctx.depthInfo with
    | some di => updFun s.depth header.hash di
    | none => s.depth
  let npp0 := ctx.nonPrunedParents.getD 0 []
  let reachabilityParent :=
    if npp0.length = 1 ∧ npp0.getD 0 ORIGIN = ORIGIN then ORIGIN
    else (ctx.ghostdagData.getD 0 default).selectedParent
  let reach1 :=
    if (s.reachability header.hash).isSome then s.reachability
    else updFun s.reachability header.hash reachabilityParent
  let hst1 :=
    if sortLt s.hst (toSortable header) then toSortable header else s.hst
  let rel1 := (List.range (ctx.blockLevel + 1)).foldl
    (fun r lvl =>
      if (r lvl header.hash).isSome then r
      else updFun2 r lvl header.hash
        (if header.directParents = [] then [ORIGIN]
         else (p.parentsAtLevel header lvl).filter (fun parent => (gd1 lvl parent).isSome)))
    s.relations
  let st1 := updFun s.statuses header.hash BlockStatus.StatusHeaderOnly
  { statuses := st1, relations := rel1, ghostdag := gd1, reachability := reach1,
    headers := headers1, daa := daa1, depth := depth1, hst := hst1,
    pruningPoint := s.pruningPoint }

/-- `process_header`: short-circuit on a known status, build the context
(non-pruned parents), run pre-ghostdag validation, compute or reuse the
per-level ghostdag data, then for untrusted headers run pre-PoW and post-PoW
validation — marking the status `Invalid` exactly on post-PoW failure —
and finally commit. Trusted headers (pre-supplied ghostdag data) skip the
PoW validations and preset empty mergeset-non-DAA and `ORIGIN` depth info. -/
def processHeader (p : HeaderProcessor) (s : HPState) (header : Header)
    (trustedGd : Option GhostdagData) : Except RuleError BlockStatus × HPState :=
  match s.statuses header.hash with
  | some BlockStatus.StatusInvalid => (Except.error RuleError.KnownInvalid, s)
  | some status => (Except.ok status, s)
  | none =>
    let npp := mkNonPrunedParents p s header
    match p.preGhostdagValidation s header trustedGd.isSome with
    | Except.error e => (Except.error e, s)
    | Except.ok blockLevel =>
      let gds := (List.range (blockLevel + 1)).map (fun lvl =>
        match s.ghostdag lvl header.hash with
        | some gd => gd
        | none => p.ghostdagManager lvl (npp.getD lvl []))
      if trustedGd.isSome then
        (Except.ok BlockStatus.StatusHeaderOnly,
          commitHeader p s header
            { nonPrunedParents := npp, ghostdagData := gds, mergesetNonDaa := [],
              depthInfo := some (ORIGIN, ORIGIN), blockLevel := blockLevel })
      else
        match p.prePowValidation s header with
        | Except.error e => (Except.error e, s)
        | Except.ok mergesetNonDaa =>
          match p.postPowValidation s header with
          | Except.error e =>
            (Except.error e,
              { s with statuses := updFun s.statuses header.hash BlockStatus.StatusInvalid })
          | Except.ok depthInfo =>
            (Except.ok BlockStatus.StatusHeaderOnly,
              commitHeader p s header
                { nonPrunedParents := npp, ghostdagData := gds,
                  mergesetNonDaa := mergesetNonDaa, depthInfo := some depthInfo,
                  blockLevel := blockLevel })

/-- `process_origin_if_needed`: when `ORIGIN` is absent from `relations[0]`,
insert it with empty parents at every level and set the headers-selected-tip
to `(ORIGIN, 0)`, in one batch; otherwise do nothing. -/
def processOriginIfNeeded (p : HeaderProcessor) (s : HPState) : HPState :=
  if (s.relations 0 ORIGIN).isSome then s
  else
    { s with
      relations := (List.range (p.maxBlockLevel + 1)).foldl
        (fun r lvl => updFun2 r lvl ORIGIN []) s.relations,
      hst := { hash := ORIGIN, blueWork := 0 } }

/-! ### Claims C1, C2, C3 about `process_header` -/

/-- Claim C1: when a header with no prior status passes pre-ghostdag and
pre-PoW validation but fails post-PoW validation, `process_header` stores
status `Invalid` for its hash, returns the validation error, and writes
nothing else: relations, reachability and ghostdag are untouched (and so is
every other status entry) — `commit_header` is never reached. -/
theorem process_header_post_pow_failure (p : HeaderProcessor) (s : HPState) (header : Header)
    (e : RuleError) (blockLevel : Nat) (mergesetNonDaa : List Hash)
    (h1 : s.statuses header.hash = none)
    (h2 : p.preGhostdagValidation s header false = Except.ok blockLevel)
    (h3 : p.prePowValidation s header = Except.ok mergesetNonDaa)
    (h4 : p.postPowValidation s header = Except.error e) :
    (processHeader p s header none).1 = Except.error e ∧
    (processHeader p s header none).2.statuses header.hash
        = some BlockStatus.StatusInvalid ∧
    (processHeader p s header none).2.relations = s.relations ∧
    (processHeader p s header none).2.reachability = s.reachability ∧
    (processHeader p s header none).2.ghostdag = s.ghostdag ∧
    (processHeader p s header none).2.headers = s.headers ∧
    (processHeader p s header none).2.daa = s.daa ∧
    (processHeader p s header none).2.depth = s.depth ∧
    (processHeader p s header none).2.hst = s.hst ∧
    ∀ h' : Hash, h' ≠ header.hash →
      (processHeader p s header none).2.statuses h' = s.statuses h' := by
  have hred : processHeader p s header none
      = (Except.error e,
          { s with statuses := updFun s.statuses header.hash BlockStatus.StatusInvalid }) := by
    simp [processHeader, h1, h2, h3, h4]
  rw [hred]
  refine ⟨rfl, by simp [updFun], rfl, rfl, rfl, rfl, rfl, rfl, rfl, ?_⟩
  intro h' hne
  simp [updFun, hne]

def emptyHPState : HPState :=
  { statuses := fun _ => none, relations := fun _ _ => none, ghostdag := fun _ _ => none,
    reachability := fun _ => none, headers := fun _ => none, daa := fun _ => none,
    depth := fun _ => none, hst := { hash := ORIGIN, blueWork := 0 },
    pruningPoint := ORIGIN }

def sampleHeader : Header :=
  { hash := 5, directParents := [1], blueWork := 10, timestamp := 0, bits := 0 }

def sampleProcessor : HeaderProcessor :=
  { maxBlockLevel := 1,
    parentsAtLevel := fun h _ => h.directParents,
    ghostdagManager := fun _ parents =>
      { selectedParent := parents.getD 0 ORIGIN, blueScore := 0, blueWork := 0,
        mergesetBlues := [], mergesetReds := [] },
    preGhostdagValidation := fun _ _ _ => Except.ok 0,
    prePowValidation := fun _ _ => Except.ok [],
    postPowValidation := fun _ _ => Except.ok (ORIGIN, ORIGIN) }

def failingProcessor : HeaderProcessor :=
  { sampleProcessor with
    postPowValidation := fun _ _ => Except.error RuleError.InvalidProofOfWork }

/-- Witness for claim C1 at a concrete input. -/
theorem process_header_post_pow_failure_witness :
    (processHeader failingProcessor emptyHPState sampleHeader none).1
        = Except.error RuleError.InvalidProofOfWork ∧
      (processHeader failingProcessor emptyHPState sampleHeader none).2.statuses
          sampleHeader.hash = some BlockStatus.StatusInvalid := by
  have hmain := process_header_post_pow_failure failingProcessor emptyHPState sampleHeader
    RuleError.InvalidProofOfWork 0 [] rfl rfl rfl rfl
  exact ⟨hmain.1, hmain.2.1⟩

/-- Claim C2: a header whose hash already has a stored status short-circuits
`process_header`: status `Invalid` yields the `KnownInvalid` error, any other
status is returned as success, and in both cases the state is entirely
unchanged. -/
theorem process_header_short_circuit (p : HeaderProcessor) (s : HPState) (header : Header)
    (trustedGd : Option GhostdagData) (st : BlockStatus)
    (h : s.statuses header.hash = some st) :
    (st = BlockStatus.StatusInvalid →
      processHeader p s header trustedGd = (Except.error RuleError.KnownInvalid, s)) ∧
    (st ≠ BlockStatus.StatusInvalid →
      processHeader p s header trustedGd = (Except.ok st, s)) := by
  cases st <;> simp [processHeader, h]

def knownStatusState : HPState :=
  { emptyHPState with
    statuses := fun h => if h = 5 then some BlockStatus.StatusHeaderOnly else none }

/-- Witness for claim C2 at a concrete input. -/
theorem process_header_short_circuit_witness :
    processHeader sampleProcessor knownStatusState sampleHeader none
      = (Except.ok BlockStatus.StatusHeaderOnly, knownStatusState) :=
  (process_header_short_circuit sampleProcessor knownStatusState sampleHeader none
    BlockStatus.StatusHeaderOnly rfl).2 (by decide)

/-- Claim C3: the non-pruned-parents list built during context construction
is, at every level up to `max_block_level`, the header's parents-at-level
filtered by presence in `relations[level]`, with `[ORIGIN]` substituted when
the filter comes back empty, and `[ORIGIN]` unconditionally for a genesis
header (empty direct parents). -/
theorem non_pruned_parents_characterization (p : HeaderProcessor) (s : HPState)
    (header : Header) (level : Nat) (h : level ≤ p.maxBlockLevel) :
    (mkNonPrunedParents p s header).getD level []
      = if header.directParents = [] then [ORIGIN]
        else if (p.parentsAtLevel header level).filter
            (fun parent => (s.relations level parent).isSome) = [] then [ORIGIN]
        else (p.parentsAtLevel header level).filter
            (fun parent => (s.relations level parent).isSome) := by
  unfold mkNonPrunedParents
  have hlt : level < p.maxBlockLevel + 1 := by omega
  simp [List.getD, List.getElem?_map, List.getElem?_range, hlt]

/-- Witness for claim C3 at a concrete input: the sample header's parent 1 is
absent from the (empty) relations store, so level 1 falls back to `[ORIGIN]`. -/
theorem non_pruned_parents_characterization_witness :
    (mkNonPrunedParents sampleProcessor emptyHPState sampleHeader).getD 1 [] = [ORIGIN] := by
  rw [non_pruned_parents_characterization sampleProcessor emptyHPState sampleHeader 1
    (by decide)]
  decide

/-! ### Claim C4: the headers-selected-tip -/

theorem sortLt_false_iff (a b : SortableBlock) :
    sortLt a b = false ↔
      (b.blueWork < a.blueWork ∨ (b.blueWork = a.blueWork ∧ b.hash ≤ a.hash)) := by
  rw [sortLt, decide_eq_false_iff_not]
  omega

theorem sortLt_irrefl (a : SortableBlock) : sortLt a a = false := by
  rw [sortLt_false_iff]
  omega

theorem sortLt_false_trans (a b c : SortableBlock) (h1 : sortLt a b = false)
    (h2 : sortLt b c = false) : sortLt a c = false := by
  rw [sortLt_false_iff] at h1 h2 ⊢
  omega

/-- The tip-update rule of `commit_header` as a binary maximum. -/
def maxSortable (a b : SortableBlock) : SortableBlock :=
  if sortLt a b then b else a

theorem maxSortable_cases (a b : SortableBlock) :
    maxSortable a b = a ∨ maxSortable a b = b := by
  unfold maxSortable
  by_cases h : sortLt a b
  · simp [h]
  · simp [h]

theorem sortLt_maxSortable_left (a b : SortableBlock) :
    sortLt (maxSortable a b) a = false := by
  unfold maxSortable
  by_cases h : sortLt a b = true
  · rw [if_pos h]
    rw [sortLt, decide_eq_true_eq] at h
    rw [sortLt_false_iff]
    omega
  · rw [if_neg h]
    exact sortLt_irrefl a

theorem sortLt_maxSortable_right (a b : SortableBlock) :
    sortLt (maxSortable a b) b = false := by
  unfold maxSortable
  by_cases h : sortLt a b = true
  · rw [if_pos h]
    exact sortLt_irrefl b
  · rw [if_neg h]
    simp only [Bool.not_eq_true] at h
    exact h

theorem foldl_maxSortable_mem (l : List SortableBlock) :
    ∀ a, l.foldl maxSortable a ∈ a :: l := by
  induction l with
  | nil => intro a; simp
  | cons b t ih =>
    intro a
    rw [List.foldl_cons]
    have hmem := ih (maxSortable a b)
    rcases List.mem_cons.mp hmem with h1 | h1
    · rw [h1]
      rcases maxSortable_cases a b with h2 | h2 <;> rw [h2] <;> simp
    · exact List.mem_cons_of_mem a (List.mem_cons_of_mem b h1)

theorem foldl_maxSortable_ge (l : List SortableBlock) :
    ∀ a x, x ∈ a :: l → sortLt (l.foldl maxSortable a) x = false := by
  induction l with
  | nil =>
    intro a x hx
    simp at hx
    subst hx
    exact sortLt_irrefl x
  | cons b t ih =>
    intro a x hx
    rw [List.foldl_cons]
    rcases List.mem_cons.mp hx with h1 | h1
    · subst h1
      exact sortLt_false_trans _ _ _
        (ih (maxSortable x b) (maxSortable x b) (List.mem_cons_self _ _))
        (sortLt_maxSortable_left x b)
    · rcases List.mem_cons.mp h1 with h2 | h2
      · subst h2
        exact sortLt_false_trans _ _ _
          (ih (maxSortable a x) (maxSortable a x) (List.mem_cons_self _ _))
          (sortLt_maxSortable_right a x)
      · exact ih (maxSortable a b) x (List.mem_cons_of_mem _ h2)

theorem commitHeader_hst (p : HeaderProcessor) (s : HPState) (header : Header)
    (ctx : CommitCtx) :
    (commitHeader p s header ctx).hst
      = if sortLt s.hst (toSortable header) then toSortable header else s.hst := rfl

theorem hst_foldl_commit (p : HeaderProcessor) (argsOf : Header → CommitCtx) :
    ∀ (hs : List Header) (s0 : HPState),
    (hs.foldl (fun st h => commitHeader p st h (argsOf h)) s0).hst
      = (hs.map toSortable).foldl maxSortable s0.hst := by
  intro hs
  induction hs with
  | nil => intro s0; rfl
  | cons h t ih =>
    intro s0
    rw [List.foldl_cons, List.map_cons, List.foldl_cons, ih]
    rfl

/-- Claim C4: during commit the headers-selected-tip is replaced by the new
header's `(blue-work, hash)` pair exactly when that pair strictly exceeds
the previous tip under the `SortableBlock` order, and consequently after any
sequence of commits the tip is the maximum — under that order — of the
initial tip and all committed headers. -/
theorem selected_tip_is_max (p : HeaderProcessor) :
    (∀ (s : HPState) (header : Header) (ctx : CommitCtx),
      (commitHeader p s header ctx).hst
        = if sortLt s.hst (toSortable header) then toSortable header else s.hst) ∧
    (∀ (argsOf : Header → CommitCtx) (s0 : HPState) (hs : List Header),
      (hs.foldl (fun st h => commitHeader p st h (argsOf h)) s0).hst
          ∈ s0.hst :: hs.map toSortable ∧
      ∀ x ∈ s0.hst :: hs.map toSortable,
        sortLt (hs.foldl (fun st h => commitHeader p st h (argsOf h)) s0).hst x
          = false) := by
  refine ⟨fun s header ctx => rfl, fun argsOf s0 hs => ?_⟩
  rw [hst_foldl_commit p argsOf hs s0]
  exact ⟨foldl_maxSortable_mem (hs.map toSortable) s0.hst,
    foldl_maxSortable_ge (hs.map toSortable) s0.hst⟩

def sampleCtx : CommitCtx :=
  { nonPrunedParents := [[ORIGIN]], ghostdagData := [default], mergesetNonDaa := [],
    depthInfo := none, blockLevel := 0 }

/-- Witness for claim C4 at a concrete input: after committing the sample
header over the empty state, the tip is not below the initial tip. -/
theorem selected_tip_is_max_witness :
    sortLt (([sampleHeader].foldl
        (fun st h => commitHeader sampleProcessor st h ((fun _ => sampleCtx) h))
        emptyHPState).hst) emptyHPState.hst = false :=
  ((selected_tip_is_max sampleProcessor).2 (fun _ => sampleCtx) emptyHPState
    [sampleHeader]).2 emptyHPState.hst (by simp)

/-! ### Claim C6: `process_origin_if_needed` -/

theorem foldl_updFun2_origin (L : List Nat) (r : Nat → Hash → Option (List Hash))
    (lvl : Nat) (x : Hash) :
    (L.foldl (fun g level => updFun2 g level ORIGIN []) r) lvl x
      = if lvl ∈ L ∧ x = ORIGIN then some [] else r lvl x := by
  induction L generalizing r with
  | nil => simp
  | cons a t ih =>
    rw [List.foldl_cons, ih]
    by_cases hmem : lvl ∈ t ∧ x = ORIGIN
    · have : lvl ∈ a :: t ∧ x = ORIGIN := ⟨List.mem_cons_of_mem a hmem.1, hmem.2⟩
      simp [hmem, this]
    · simp only [hmem, if_false]
      show (if lvl = a ∧ x = ORIGIN then some [] else r lvl x)
          = if lvl ∈ a :: t ∧ x = ORIGIN then some [] else r lvl x
      by_cases ha : lvl = a ∧ x = ORIGIN
      · rw [if_pos ha, if_pos ⟨List.mem_cons.mpr (Or.inl ha.1), ha.2⟩]
      · have hno : ¬ (lvl ∈ a :: t ∧ x = ORIGIN) := by
          rintro ⟨hm, hx⟩
          rcases List.mem_cons.mp hm with h1 | h1
          · exact ha ⟨h1, hx⟩
          · exact hmem ⟨h1, hx⟩
        rw [if_neg ha, if_neg hno]

/-- Claim C6: `process_origin_if_needed` is a no-op when `ORIGIN` is already
present in `relations[0]`; otherwise it inserts `ORIGIN` with an empty parent
list at every level up to `max_block_level` (leaving all other relations
entries and all other stores unchanged) and sets the headers-selected-tip to
`(ORIGIN, 0)`; consequently running it twice equals running it once. -/
theorem process_origin_if_needed_spec (p : HeaderProcessor) (s : HPState) :
    ((s.relations 0 ORIGIN).isSome = true → processOriginIfNeeded p s = s) ∧
    ((s.relations 0 ORIGIN).isSome = false →
      (∀ lvl, lvl ≤ p.maxBlockLevel →
        (processOriginIfNeeded p s).relations lvl ORIGIN = some []) ∧
      (∀ lvl x, ¬ (lvl ≤ p.maxBlockLevel ∧ x = ORIGIN) →
        (processOriginIfNeeded p s).relations lvl x = s.relations lvl x) ∧
      (processOriginIfNeeded p s).hst = { hash := ORIGIN, blueWork := 0 } ∧
      (processOriginIfNeeded p s).statuses = s.statuses ∧
      (processOriginIfNeeded p s).ghostdag = s.ghostdag ∧
      (processOriginIfNeeded p s).reachability = s.reachability ∧
      (processOriginIfNeeded p s).headers = s.headers ∧
      (processOriginIfNeeded p s).daa = s.daa ∧
      (processOriginIfNeeded p s).depth = s.depth) ∧
    processOriginIfNeeded p (processOriginIfNeeded p s) = processOriginIfNeeded p s := by
  by_cases hs : (s.relations 0 ORIGIN).isSome = true
  · have hid : processOriginIfNeeded p s = s := by
      simp [processOriginIfNeeded, hs]
    refine ⟨fun _ => hid, fun hc => ?_, by rw [hid, hid]⟩
    rw [hs] at hc
    exact absurd hc (by simp)
  · have hred : processOriginIfNeeded p s
        = { s with
            relations := (List.range (p.maxBlockLevel + 1)).foldl
              (fun r lvl => updFun2 r lvl ORIGIN []) s.relations,
            hst := { hash := ORIGIN, blueWork := 0 } } := by
      simp [processOriginIfNeeded, hs]
    have hrel : ∀ lvl x, (processOriginIfNeeded p s).relations lvl x
        = if lvl ∈ List.range (p.maxBlockLevel + 1) ∧ x = ORIGIN then some []
          else s.relations lvl x := by
      intro lvl x
      rw [hred]
      exact foldl_updFun2_origin (List.range (p.maxBlockLevel + 1)) s.relations lvl x
    have hsome : ((processOriginIfNeeded p s).relations 0 ORIGIN).isSome = true := by
      rw [hrel 0 ORIGIN]
      simp
    refine ⟨fun hc => ?_, fun _ => ?_, ?_⟩
    · rw [hc] at hs
      exact absurd rfl hs
    · refine ⟨?_, ?_, by rw [hred], by rw [hred], by rw [hred], by rw [hred],
        by rw [hred], by rw [hred], by rw [hred]⟩
      · intro lvl hlvl
        rw [hrel lvl ORIGIN]
        have hin : lvl ∈ List.range (p.maxBlockLevel + 1) := by
          rw [List.mem_range]
          omega
        rw [if_pos ⟨hin, rfl⟩]
      · intro lvl x hno
        rw [hrel lvl x]
        have hnin : ¬ (lvl ∈ List.range (p.maxBlockLevel + 1) ∧ x = ORIGIN) := by
          rintro ⟨hm, hx⟩
          rw [List.mem_range] at hm
          exact hno ⟨by omega, hx⟩
        rw [if_neg hnin]
    · conv => lhs; rw [processOriginIfNeeded, if_pos hsome]

def originAbsentState : HPState := emptyHPState

/-- Witness for claim C6 at a concrete input: on the empty state the routine
installs `(ORIGIN, 0)` as the selected tip and `ORIGIN`'s empty parent list. -/
theorem process_origin_if_needed_spec_witness :
    (processOriginIfNeeded sampleProcessor originAbsentState).hst
        = { hash := ORIGIN, blueWork := 0 } ∧
      (processOriginIfNeeded sampleProcessor originAbsentState).relations 0 ORIGIN
        = some [] := by
  have hmain := (process_origin_if_needed_spec sampleProcessor originAbsentState).2.1 rfl
  exact ⟨hmain.2.2.1, hmain.1 0 (by decide)⟩

end RustyKaspa
